import Mathlib

/-
Verification of the KPFM Bayesian inference pipeline
(src/pycroscopy/analysis/kpfm_bayesian/kpfm_bayesian_utils.py).

The development shallowly embeds the numerical core of the module:
numpy arrays become an explicit `NDArr` record (row count, column count,
entry function over natural indices), loops that write array slices become
folds over `List.range`, numpy slicing / fliplr / concatenate / matmul
become entrywise operations, and machine floats are modelled as real
numbers.  Python name resolution (needed for the wiring-defect claim about
`process_pixel` / `processResults`) is modelled by explicit scope lists of
the names bound in the module and in each function body.
-/

namespace KpfmBayes

/-! ## Python name-resolution model for process_pixel / processResults

`process_pixel` (lines 16-21) calls
`processResults(p, R_H, wd, Rforce, M, Sig, B, m_phi, y, CC, ...)`,
and `processResults` (line 419) returns a tuple whose eighth component is
the bare name `S`.  Python resolves each name against the local scope of
the enclosing function and then the module's global scope (there is no
enclosing closure scope here, and neither `Rforce` nor `S` is a builtin).
We record those scopes exactly as the source binds them. -/

/-- Names bound at module level of kpfm_bayesian_utils.py before any call:
the five imports (lines 10-14) and the five function definitions. -/
def moduleNames : List String :=
  ["plt", "spo", "spla", "np", "time",
   "process_pixel", "get_default_parameters", "_B_phin", "_mmlenn",
   "BayesianInference", "processResults"]

/-- Local names of `process_pixel` when line 21 executes: the six
parameters (line 16) and the eighteen targets of the tuple assignment on
line 18. -/
def processPixelLocals : List String :=
  ["R_H", "wd", "n0", "p", "graph", "verbose",
   "y", "tt", "pp1", "sig", "gam", "AA", "B", "BB", "CC", "C0", "P0",
   "CC1", "GAI", "M", "m0", "phi", "m_phi", "Sig"]

/-- The names evaluated, in order, by the call expression on line 21:
the callee followed by its positional and keyword arguments. -/
def processPixelCallNames : List String :=
  ["processResults", "p", "R_H", "wd", "Rforce", "M", "Sig", "B",
   "m_phi", "y", "CC", "graph", "verbose"]

/-- Local names of `processResults` on the non-graph path when the return
statement (line 419) executes: the twelve parameters (line 305) and the
names assigned on lines 306-329 and 394-403 (the `graph` blocks are
skipped when `graph` is false). -/
def processResultsLocals : List String :=
  ["p", "R_H", "wd", "Rforce", "M", "Sig", "B", "m_phi", "y", "CC",
   "graph", "verbose",
   "t_max", "fac", "wr1", "Vac", "phi", "n0", "N1", "OmV", "Om0", "w",
   "T", "Tsec", "h", "tt", "h1", "tt1", "w_ang", "R", "R_seg",
   "rrmse", "x1", "y1", "p1", "yfit", "yresid", "SSresid", "SStotal",
   "rsq"]

/-- The names evaluated, in order, by the non-graph return expression on
line 419. -/
def processResultsReturnNames : List String :=
  ["phi", "p", "rrmse", "np", "B", "m_phi", "M", "R_seg", "y", "CC",
   "p1", "S", "rsq"]

/-- A name resolves if it is a local of the current function or a module
global (none of the names involved is a Python builtin). -/
def resolves (locals : List String) (x : String) : Bool :=
  locals.contains x || moduleNames.contains x

/-- Evaluate a list of names in order; the first unresolvable name raises
`NameError`, otherwise evaluation succeeds. -/
def evalNames (locals names : List String) : Except String Unit :=
  match names.find? (fun x => !(resolves locals x)) with
  | some x => Except.error ("NameError: name " ++ x ++ " is not defined")
  | none => Except.ok ()

/-- Outcome of executing line 21 of `process_pixel` (after the
`BayesianInference` call on line 18 has bound its eighteen locals). -/
def process_pixel_outcome : Except String Unit :=
  evalNames processPixelLocals processPixelCallNames

/-- Outcome of executing the non-graph return statement (line 419) of
`processResults`. -/
def processResults_return_outcome : Except String Unit :=
  evalNames processResultsLocals processResultsReturnNames

/-- Claim C1: the call on line 21 of `process_pixel` evaluates the bare
name `Rforce`, which is neither a local of `process_pixel` nor a module
global, so a `NameError` is raised before `processResults` can run; and
even called directly, the non-graph return statement of `processResults`
(line 419) evaluates the undefined name `S` and raises a `NameError`
before producing the documented output tuple.  The name-resolution model
does not depend on the numeric input values, so this holds for every
input `(R_H, wd, n0, p)`. -/
theorem process_pixel_undefined_names :
    process_pixel_outcome = Except.error "NameError: name Rforce is not defined" ∧
    processResults_return_outcome = Except.error "NameError: name S is not defined" :=
  ⟨rfl, rfl⟩

/-! ## NDArr: the numpy-array model -/

/-- A numpy 2-D array: a row count, a column count, and an entry function.
Entries outside the recorded shape are irrelevant junk; every theorem
constrains indices to the shape. -/
structure NDArr where
  rows : ℕ
  cols : ℕ
  entry : ℕ → ℕ → ℝ

/-- np.zeros((m, k)). -/
def NDArr.zeros (m k : ℕ) : NDArr := ⟨m, k, fun _ _ => 0⟩

/-- Matrix transpose `X.T`. -/
def NDArr.transpose (X : NDArr) : NDArr := ⟨X.cols, X.rows, fun r c => X.entry c r⟩

/-- np.matmul(X, Y). -/
noncomputable def NDArr.matmul (X Y : NDArr) : NDArr :=
  ⟨X.rows, Y.cols, fun r c => ∑ k ∈ Finset.range X.cols, X.entry r k * Y.entry k c⟩

/-- Elementwise multiplication by a scalar on the right (`X * h`). -/
def NDArr.scale (x : ℝ) (X : NDArr) : NDArr :=
  ⟨X.rows, X.cols, fun r c => X.entry r c * x⟩

/-- np.fliplr(X): reverse the column order. -/
def NDArr.fliplr (X : NDArr) : NDArr :=
  ⟨X.rows, X.cols, fun r c => X.entry r (X.cols - 1 - c)⟩

/-- The strided column slice `X[:, off::2]` (numpy keeps
`ceil((cols - off) / 2)` columns). -/
def colStride2 (off : ℕ) (X : NDArr) : NDArr :=
  ⟨X.rows, (X.cols - off + 1) / 2, fun r c => X.entry r (2 * c + off)⟩

/-- The strided row slice `X[::2, :]` (numpy keeps `ceil(rows / 2)` rows). -/
def everyOtherRow (X : NDArr) : NDArr :=
  ⟨(X.rows + 1) / 2, X.cols, fun r c => X.entry (2 * r) c⟩

/-- `X.reshape((X.size, 1), order='F')`: column-major flattening of a
matrix into a single column. -/
def reshapeFcol (X : NDArr) : NDArr :=
  ⟨X.rows * X.cols, 1, fun r _ => X.entry (r % X.rows) (r / X.rows)⟩

/-- np.concatenate((X, Y), axis=1). -/
def NDArr.hconcat (X Y : NDArr) : NDArr :=
  ⟨X.rows, X.cols + Y.cols, fun r c => if c < X.cols then X.entry r c else Y.entry r (c - X.cols)⟩

/-- Folding a slice-writing loop body over a list preserves the row count
when each write does. -/
theorem foldl_rows_const (f : NDArr → ℕ → NDArr) (hf : ∀ A i, (f A i).rows = A.rows)
    (l : List ℕ) (A : NDArr) : (l.foldl f A).rows = A.rows := by
  induction l generalizing A with
  | nil => rfl
  | cons i l ih => simpa [List.foldl_cons, hf] using ih (f A i)

/-- Folding a slice-writing loop body over a list preserves the column
count when each write does. -/
theorem foldl_cols_const (f : NDArr → ℕ → NDArr) (hf : ∀ A i, (f A i).cols = A.cols)
    (l : List ℕ) (A : NDArr) : (l.foldl f A).cols = A.cols := by
  induction l generalizing A with
  | nil => rfl
  | cons i l ih => simpa [List.foldl_cons, hf] using ih (f A i)

/-! ## Basis Builder `_B_phin` (lines 77-92) -/

/-- One iteration of the loop on lines 89-90:
`Bn[1:2*N+1:2, i] = np.squeeze(np.sin(w*tt + phi)**i)`, writing
`sin(w*tt[q] + phi)^i` into column `i` at every odd row `2*q+1 < 2*N`. -/
noncomputable def B_phin_step (phi w : ℝ) (tt : ℕ → ℝ) (N : ℕ) (Bn : NDArr) (i : ℕ) : NDArr :=
  ⟨Bn.rows, Bn.cols, fun r c =>
    if c = i ∧ r % 2 = 1 ∧ r < 2 * N then Real.sin (w * tt (r / 2) + phi) ^ i
    else Bn.entry r c⟩

/-- `_B_phin(phi, w, tt, n)` (lines 77-92): start from
`np.zeros((2*N, n+1))` and run the column loop for `i = 0 .. n`. -/
noncomputable def B_phin (phi w : ℝ) (tt : ℕ → ℝ) (N n : ℕ) : NDArr :=
  (List.range (n + 1)).foldl (B_phin_step phi w tt N) (NDArr.zeros (2 * N) (n + 1))

theorem B_phin_rows (phi w : ℝ) (tt : ℕ → ℝ) (N n : ℕ) :
    (B_phin phi w tt N n).rows = 2 * N :=
  foldl_rows_const (B_phin_step phi w tt N) (fun _ _ => rfl)
    (List.range (n + 1)) (NDArr.zeros (2 * N) (n + 1))

theorem B_phin_cols (phi w : ℝ) (tt : ℕ → ℝ) (N n : ℕ) :
    (B_phin phi w tt N n).cols = n + 1 :=
  foldl_cols_const (B_phin_step phi w tt N) (fun _ _ => rfl)
    (List.range (n + 1)) (NDArr.zeros (2 * N) (n + 1))

/-- Closed form for the entries of `_B_phin`: odd rows below `2*N` carry the
sine powers for every column written so far, all other entries stay zero. -/
theorem B_phin_entry (phi w : ℝ) (tt : ℕ → ℝ) (N n : ℕ) (r c : ℕ) :
    (B_phin phi w tt N n).entry r c =
      if c < n + 1 ∧ r % 2 = 1 ∧ r < 2 * N then Real.sin (w * tt (r / 2) + phi) ^ c
      else 0 := by
  have key : ∀ m r c, (((List.range m).foldl (B_phin_step phi w tt N)
      (NDArr.zeros (2 * N) (n + 1)))).entry r c =
      if c < m ∧ r % 2 = 1 ∧ r < 2 * N then Real.sin (w * tt (r / 2) + phi) ^ c
      else 0 := by
    intro m
    induction m with
    | zero =>
      intro r c
      simp [NDArr.zeros]
    | succ m ih =>
      intro r c
      rw [List.range_succ, List.foldl_append]
      simp only [List.foldl_cons, List.foldl_nil, B_phin_step]
      rw [ih r c]
      by_cases hceq : c = m
      · subst hceq
        by_cases hrow : r % 2 = 1 ∧ r < 2 * N
        · have h1 : c = c ∧ r % 2 = 1 ∧ r < 2 * N := ⟨rfl, hrow⟩
          have h2 : c < c + 1 ∧ r % 2 = 1 ∧ r < 2 * N := ⟨Nat.lt_succ_self c, hrow⟩
          rw [if_pos h1, if_pos h2]
        · rw [if_neg (fun h => hrow h.2), if_neg (fun h => hrow h.2),
            if_neg (fun h => hrow h.2)]
      · rw [if_neg (fun h => hceq h.1)]
        by_cases h2 : c < m ∧ r % 2 = 1 ∧ r < 2 * N
        · have h3 : c < m + 1 ∧ r % 2 = 1 ∧ r < 2 * N := ⟨by omega, h2.2⟩
          rw [if_pos h2, if_pos h3]
        · rw [if_neg h2, if_neg (fun h => h2 ⟨by omega, h.2⟩)]
  exact key (n + 1) r c

/-- Claim C8: for every phase, frequency, time vector and polynomial order,
`_B_phin` returns a `(2*N) × (n+1)` matrix whose even-indexed rows are
exactly zero and whose odd-indexed rows hold `sin(w*t + phi)^i` for every
column `i = 0 .. n`; it is a total function of its inputs. -/
theorem B_phin_shape_and_rows (phi w : ℝ) (tt : ℕ → ℝ) (N n : ℕ) :
    (B_phin phi w tt N n).rows = 2 * N ∧
    (B_phin phi w tt N n).cols = n + 1 ∧
    (∀ r c, r < 2 * N → c < n + 1 → r % 2 = 0 →
      (B_phin phi w tt N n).entry r c = 0) ∧
    (∀ q i, q < N → i < n + 1 →
      (B_phin phi w tt N n).entry (2 * q + 1) i = Real.sin (w * tt q + phi) ^ i) := by
  refine ⟨B_phin_rows phi w tt N n, B_phin_cols phi w tt N n, ?_, ?_⟩
  · intro r c hr hc hodd
    rw [B_phin_entry, if_neg (by omega)]
  · intro q i hq hi
    have hcond : i < n + 1 ∧ (2 * q + 1) % 2 = 1 ∧ 2 * q + 1 < 2 * N :=
      ⟨hi, by omega, by omega⟩
    rw [B_phin_entry, if_pos hcond]
    have hq2 : (2 * q + 1) / 2 = q := by omega
    rw [hq2]

/-- Witness for C8 at a concrete input: with `N = 1`, `n = 0`, the even row
0 of the basis matrix is zero. -/
theorem B_phin_shape_and_rows_witness :
    (B_phin 0 0 (fun _ => 0) 1 0).entry 0 0 = 0 :=
  (B_phin_shape_and_rows 0 0 (fun _ => 0) 1 0).2.2.1 0 0 (by norm_num) (by norm_num) (by norm_num)

/-! ## State Transition Assembler (BayesianInference, lines 160, 172-191)

`L = np.array([[0, 1], [-1, -Qi]])`; the loop on lines 178-179 fills
`A[:, 2*i:2*(i+1)] = spla.expm(L*h*(i+1))`; lines 181-185 flip the block
order into `A1`, and the loop on lines 187-188 writes the shifted rows of
`A1` into the block lower-triangular matrix `AA`. -/

/-- The 2x2 generator `L` (line 160) with `Qi = 1/Q`. -/
def Lmat (Qi : ℝ) : Matrix (Fin 2) (Fin 2) ℝ := !![0, 1; -1, -Qi]

/-- `spla.expm(L*h*m)` as an entry function over natural indices: the
matrix exponential of `(h*m) • L`, with out-of-range entries zero. -/
noncomputable def expmLh (L : Matrix (Fin 2) (Fin 2) ℝ) (h : ℝ) (m : ℕ) : ℕ → ℕ → ℝ :=
  fun r c =>
    if hr : r < 2 then
      if hc : c < 2 then NormedSpace.exp ℝ ((h * m) • L) ⟨r, hr⟩ ⟨c, hc⟩ else 0
    else 0

/-- One iteration of the loop on lines 178-179:
`A[:, 2*i:2*(i+1)] = spla.expm(L*h*(i+1))`. -/
noncomputable def expmLoopStep (L : Matrix (Fin 2) (Fin 2) ℝ) (h : ℝ) (A : NDArr) (i : ℕ) :
    NDArr :=
  ⟨A.rows, A.cols, fun r c =>
    if r < 2 ∧ 2 * i ≤ c ∧ c < 2 * (i + 1) then expmLh L h (i + 1) r (c - 2 * i)
    else A.entry r c⟩

/-- `A` after the loop on lines 178-179: 2 x 2N, the i-th 2x2 column block
holding `expm(L*h*(i+1))`. -/
noncomputable def A_expm (L : Matrix (Fin 2) (Fin 2) ℝ) (h : ℝ) (N : ℕ) : NDArr :=
  (List.range N).foldl (expmLoopStep L h) (NDArr.zeros 2 (2 * N))

/-- `a1 = np.fliplr(A[:, ::2])` (line 181). -/
noncomputable def a1_flip (L : Matrix (Fin 2) (Fin 2) ℝ) (h : ℝ) (N : ℕ) : NDArr :=
  NDArr.fliplr (colStride2 0 (A_expm L h N))

/-- `a2 = np.fliplr(A[:, 1::2])` (line 182). -/
noncomputable def a2_flip (L : Matrix (Fin 2) (Fin 2) ℝ) (h : ℝ) (N : ℕ) : NDArr :=
  NDArr.fliplr (colStride2 1 (A_expm L h N))

/-- `A1 = 0*A; A1[:, ::2] = a1; A1[:, 1::2] = a2` (lines 183-185),
written entrywise: even columns come from `a1`, odd columns from `a2`. -/
noncomputable def A1_mat (L : Matrix (Fin 2) (Fin 2) ℝ) (h : ℝ) (N : ℕ) : NDArr :=
  ⟨2, 2 * N, fun r c =>
    if c % 2 = 0 then (a1_flip L h N).entry r (c / 2) else (a2_flip L h N).entry r (c / 2)⟩

/-- One iteration of the loop on lines 187-188:
`AA[2*j:2*(j+1), :2*j] = A1[:, -2*j:]` (the last `2*j` of the `2*N`
columns of `A1`). -/
noncomputable def AA_loopStep (A1 : NDArr) (N : ℕ) (AA : NDArr) (j : ℕ) : NDArr :=
  ⟨AA.rows, AA.cols, fun r c =>
    if 2 * j ≤ r ∧ r < 2 * (j + 1) ∧ c < 2 * j then A1.entry (r - 2 * j) (2 * N - 2 * j + c)
    else AA.entry r c⟩

/-- `AA` after the loop `for j in range(1, N)` on lines 187-188, starting
from `np.zeros((2*N, 2*N))` (line 173). -/
noncomputable def AA_mat (L : Matrix (Fin 2) (Fin 2) ℝ) (h : ℝ) (N : ℕ) : NDArr :=
  (List.range' 1 (N - 1)).foldl (AA_loopStep (A1_mat L h N) N) (NDArr.zeros (2 * N) (2 * N))

theorem AA_mat_rows (L : Matrix (Fin 2) (Fin 2) ℝ) (h : ℝ) (N : ℕ) :
    (AA_mat L h N).rows = 2 * N :=
  foldl_rows_const (AA_loopStep (A1_mat L h N) N) (fun _ _ => rfl)
    (List.range' 1 (N - 1)) (NDArr.zeros (2 * N) (2 * N))

theorem AA_mat_cols (L : Matrix (Fin 2) (Fin 2) ℝ) (h : ℝ) (N : ℕ) :
    (AA_mat L h N).cols = 2 * N :=
  foldl_cols_const (AA_loopStep (A1_mat L h N) N) (fun _ _ => rfl)
    (List.range' 1 (N - 1)) (NDArr.zeros (2 * N) (2 * N))

/-- Closed form for the entries of `A` (lines 178-179): within the 2 x 2N
shape, column `c` belongs to block `c / 2` and holds column `c % 2` of
`expm(L*h*(c/2 + 1))`. -/
theorem A_expm_entry (L : Matrix (Fin 2) (Fin 2) ℝ) (h : ℝ) (N : ℕ) (r c : ℕ)
    (hr : r < 2) (hc : c < 2 * N) :
    (A_expm L h N).entry r c = expmLh L h (c / 2 + 1) r (c % 2) := by
  have key : ∀ m r c, r < 2 → c < 2 * m →
      (((List.range m).foldl (expmLoopStep L h) (NDArr.zeros 2 (2 * N)))).entry r c =
        expmLh L h (c / 2 + 1) r (c % 2) := by
    intro m
    induction m with
    | zero => intro r c _ hc; omega
    | succ m ih =>
      intro r c hr hc
      rw [List.range_succ, List.foldl_append]
      simp only [List.foldl_cons, List.foldl_nil, expmLoopStep]
      by_cases hblk : 2 * m ≤ c
      · have hcond : r < 2 ∧ 2 * m ≤ c ∧ c < 2 * (m + 1) := ⟨hr, hblk, hc⟩
        rw [if_pos hcond]
        have h1 : c / 2 + 1 = m + 1 := by omega
        have h2 : c - 2 * m = c % 2 := by omega
        rw [h1, h2]
      · rw [if_neg (fun hcond => hblk hcond.2.1)]
        exact ih r c hr (by omega)
  exact key N r c hr hc

/-- Closed form for the entries of `A1` (lines 181-185): within the 2 x 2N
shape, column `c` of `A1` holds column `c % 2` of the reversed block
`expm(L*h*(N - c/2))`. -/
theorem A1_mat_entry (L : Matrix (Fin 2) (Fin 2) ℝ) (h : ℝ) (N : ℕ) (r c : ℕ)
    (hr : r < 2) (hc : c < 2 * N) :
    (A1_mat L h N).entry r c = expmLh L h (N - c / 2) r (c % 2) := by
  have hq : c / 2 < N := by omega
  by_cases hpar : c % 2 = 0
  · have hA : (A1_mat L h N).entry r c = (a1_flip L h N).entry r (c / 2) := by
      simp only [A1_mat, hpar, if_pos]
    rw [hA]
    simp only [a1_flip, NDArr.fliplr, colStride2]
    have hcols : (A_expm L h N).cols = 2 * N :=
      foldl_cols_const (expmLoopStep L h) (fun _ _ => rfl) (List.range N) (NDArr.zeros 2 (2 * N))
    rw [hcols]
    have harg : 2 * ((2 * N - 0 + 1) / 2 - 1 - c / 2) + 0 = 2 * (N - 1 - c / 2) := by omega
    rw [harg]
    have hlt : 2 * (N - 1 - c / 2) < 2 * N := by omega
    rw [A_expm_entry L h N r _ hr hlt]
    have h1 : 2 * (N - 1 - c / 2) / 2 + 1 = N - c / 2 := by omega
    have h2 : 2 * (N - 1 - c / 2) % 2 = 0 := by omega
    rw [h1, h2, hpar]
  · have hpar1 : c % 2 = 1 := by omega
    have hA : (A1_mat L h N).entry r c = (a2_flip L h N).entry r (c / 2) := by
      simp only [A1_mat, hpar1]
      norm_num
    rw [hA]
    simp only [a2_flip, NDArr.fliplr, colStride2]
    have hcols : (A_expm L h N).cols = 2 * N :=
      foldl_cols_const (expmLoopStep L h) (fun _ _ => rfl) (List.range N) (NDArr.zeros 2 (2 * N))
    rw [hcols]
    have harg : 2 * ((2 * N - 1 + 1) / 2 - 1 - c / 2) + 1 = 2 * (N - 1 - c / 2) + 1 := by omega
    rw [harg]
    have hlt : 2 * (N - 1 - c / 2) + 1 < 2 * N := by omega
    rw [A_expm_entry L h N r _ hr hlt]
    have h1 : (2 * (N - 1 - c / 2) + 1) / 2 + 1 = N - c / 2 := by omega
    have h2 : (2 * (N - 1 - c / 2) + 1) % 2 = 1 := by omega
    rw [h1, h2, hpar1]

/-- Closed form for the entries of `AA` after processing `j = 1 .. m`:
row `r` is written exactly when its block row `r/2` lies in `1 .. m` and
the column is strictly left of the diagonal block. -/
theorem AA_fold_entry (A1 : NDArr) (N : ℕ) (m : ℕ) (r c : ℕ) :
    (((List.range' 1 m).foldl (AA_loopStep A1 N) (NDArr.zeros (2 * N) (2 * N)))).entry r c =
      if 1 ≤ r / 2 ∧ r / 2 ≤ m ∧ c < 2 * (r / 2) then
        A1.entry (r % 2) (2 * N - 2 * (r / 2) + c)
      else 0 := by
  induction m with
  | zero =>
    simp only [List.range', List.foldl_nil, NDArr.zeros]
    rw [if_neg (by omega)]
  | succ m ih =>
    rw [List.range'_concat, List.foldl_append]
    simp only [List.foldl_cons, List.foldl_nil, AA_loopStep]
    have hel : 1 + 1 * m = m + 1 := by omega
    rw [hel]
    by_cases hw : 2 * (m + 1) ≤ r ∧ r < 2 * (m + 1 + 1) ∧ c < 2 * (m + 1)
    · rw [if_pos hw]
      have hdiv : r / 2 = m + 1 := by omega
      have hmod : r - 2 * (m + 1) = r % 2 := by omega
      rw [if_pos (by omega), hmod, hdiv]
    · rw [if_neg hw, ih]
      by_cases hold : 1 ≤ r / 2 ∧ r / 2 ≤ m ∧ c < 2 * (r / 2)
      · rw [if_pos hold, if_pos (by omega)]
      · rw [if_neg hold, if_neg (by omega)]

/-- Claim C2: `AA` assembled in `BayesianInference` is `2N x 2N` and block
lower-triangular with zero diagonal blocks: its 2x2 block at block row `j`
and block column `k` equals `expm(L*h*(j-k))` whenever `k < j`, and is the
zero block whenever `k ≥ j`, where the per-step blocks `expm(L*h*(i+1))`
are laid out by `fliplr` reversal and per-row shifting. -/
theorem AA_block_toeplitz_structure (Qi h : ℝ) (N j k s t : ℕ)
    (hj : j < N) (hk : k < N) (hs : s < 2) (ht : t < 2) :
    (AA_mat (Lmat Qi) h N).rows = 2 * N ∧
    (AA_mat (Lmat Qi) h N).cols = 2 * N ∧
    (k < j → (AA_mat (Lmat Qi) h N).entry (2 * j + s) (2 * k + t) =
      NormedSpace.exp ℝ ((h * (j - k : ℕ)) • Lmat Qi) ⟨s, hs⟩ ⟨t, ht⟩) ∧
    (j ≤ k → (AA_mat (Lmat Qi) h N).entry (2 * j + s) (2 * k + t) = 0) := by
  refine ⟨AA_mat_rows _ h N, AA_mat_cols _ h N, ?_, ?_⟩
  · intro hkj
    rw [AA_mat, AA_fold_entry]
    have hdiv : (2 * j + s) / 2 = j := by omega
    have hmod : (2 * j + s) % 2 = s := by omega
    rw [if_pos (by omega), hdiv, hmod]
    have hcol : 2 * N - 2 * j + (2 * k + t) = 2 * (N - j + k) + t := by omega
    rw [hcol]
    have hclt : 2 * (N - j + k) + t < 2 * N := by omega
    rw [A1_mat_entry (Lmat Qi) h N s _ hs hclt]
    have h1 : N - (2 * (N - j + k) + t) / 2 = j - k := by omega
    have h2 : (2 * (N - j + k) + t) % 2 = t := by omega
    rw [h1, h2, expmLh]
    simp only [hs, ht, dif_pos]
  · intro hjk
    rw [AA_mat, AA_fold_entry]
    rw [if_neg (by omega)]

/-- Witness for C2 at a concrete input: `N = 2`, block `(1,0)` equals the
one-step transition `expm(L*h)` and block `(0,1)` is zero. -/
theorem AA_block_toeplitz_structure_witness :
    (AA_mat (Lmat 1) 1 2).entry (2 * 1 + 0) (2 * 0 + 0) =
      NormedSpace.exp ℝ (((1 : ℝ) * ((1 - 0 : ℕ) : ℕ)) • Lmat 1) ⟨0, by norm_num⟩ ⟨0, by norm_num⟩ :=
  (AA_block_toeplitz_structure 1 1 2 1 0 0 0 (by norm_num) (by norm_num) (by norm_num)
    (by norm_num)).2.2.1 (by norm_num)

/-! ## Design Matrix Constructor (lines 122-127 and 217-224)

`BB = np.matmul(AA, B)*h`;
`CC1 = np.concatenate((a1.reshape((a1.size, 1), order='F'),
                       a2.reshape((a2.size, 1), order='F'), BB), axis=1)`;
`CC = CC1[::2, :]`.  In `BayesianInference` the `a1`, `a2` passed here are
the unflipped strided slices `A[:, ::2]` and `A[:, 1::2]` (lines 190-191). -/

/-- `BB = np.matmul(AA, B)*h` (lines 123 and 218). -/
noncomputable def BB_of (AAm B : NDArr) (h : ℝ) : NDArr := NDArr.scale h (NDArr.matmul AAm B)

/-- `CC1` (lines 125-126 and 222-223): column-major flattenings of `a1`
and `a2`, then the columns of `BB`. -/
noncomputable def CC1_of (a1 a2 BB : NDArr) : NDArr :=
  NDArr.hconcat (reshapeFcol a1) (NDArr.hconcat (reshapeFcol a2) BB)

/-- `CC = CC1[::2, :]` (lines 127 and 224). -/
noncomputable def CC_of (a1 a2 BB : NDArr) : NDArr := everyOtherRow (CC1_of a1 a2 BB)

/-- The full `CC1` built once per window in `BayesianInference`
(lines 217-223) from the window quantities. -/
noncomputable def CC1_pipeline (Qi h phi w : ℝ) (tt : ℕ → ℝ) (N n : ℕ) : NDArr :=
  CC1_of (colStride2 0 (A_expm (Lmat Qi) h N)) (colStride2 1 (A_expm (Lmat Qi) h N))
    (BB_of (AA_mat (Lmat Qi) h N) (B_phin phi w tt N n) h)

/-- The full `CC` built once per window in `BayesianInference` (line 224);
`_mmlenn` rebuilds the same shape on every evaluation (lines 122-127). -/
noncomputable def CC_pipeline (Qi h phi w : ℝ) (tt : ℕ → ℝ) (N n : ℕ) : NDArr :=
  everyOtherRow (CC1_pipeline Qi h phi w tt N n)

/-- Claim C10: in every construction of the design matrix, the
intermediate `CC1` has `2*N` rows and `M = 2 + n + 1` columns, and after
taking every other row `CC` has exactly `N` rows — the length of the
observation vector `y = (1e9)*R_H[:N]` — and `M` columns. -/
theorem CC_shape_invariant (Qi h phi w : ℝ) (tt : ℕ → ℝ) (N n : ℕ) :
    (CC1_pipeline Qi h phi w tt N n).rows = 2 * N ∧
    (CC1_pipeline Qi h phi w tt N n).cols = 2 + n + 1 ∧
    (CC_pipeline Qi h phi w tt N n).rows = N ∧
    (CC_pipeline Qi h phi w tt N n).cols = 2 + n + 1 := by
  have hArows : (A_expm (Lmat Qi) h N).rows = 2 :=
    foldl_rows_const (expmLoopStep (Lmat Qi) h) (fun _ _ => rfl)
      (List.range N) (NDArr.zeros 2 (2 * N))
  have hAcols : (A_expm (Lmat Qi) h N).cols = 2 * N :=
    foldl_cols_const (expmLoopStep (Lmat Qi) h) (fun _ _ => rfl)
      (List.range N) (NDArr.zeros 2 (2 * N))
  have hrows1 : (CC1_pipeline Qi h phi w tt N n).rows = 2 * N := by
    simp only [CC1_pipeline, CC1_of, NDArr.hconcat, reshapeFcol, colStride2]
    rw [hArows, hAcols]
    omega
  have hcols1 : (CC1_pipeline Qi h phi w tt N n).cols = 2 + n + 1 := by
    simp only [CC1_pipeline, CC1_of, NDArr.hconcat, reshapeFcol, BB_of, NDArr.scale,
      NDArr.matmul]
    rw [B_phin_cols]
    omega
  refine ⟨hrows1, hcols1, ?_, ?_⟩
  · show ((CC1_pipeline Qi h phi w tt N n).rows + 1) / 2 = N
    rw [hrows1]
    omega
  · show (CC1_pipeline Qi h phi w tt N n).cols = 2 + n + 1
    exact hcols1

/-! ## Posterior Evaluator (lines 130-131, 228-229, 297-298)

`Sig, resid, rank, s = np.linalg.lstsq(P0 + CC.T @ GAI @ CC, np.eye(M))`;
`m_phi = Sig @ (CC.T @ GAI @ y + P0 @ m0)`.
`np.linalg.lstsq(A, B)` returns a least-squares solution of `A·X = B`:
a matrix minimizing the Frobenius residual `‖A·X − B‖`.  We characterize
that output by the predicate `IsLstsqSol` below and show that whenever
the normal-equations matrix is invertible the characterization pins the
output to the exact inverse. -/

/-- Squared Frobenius norm of a square matrix. -/
def sqFrob {M : ℕ} (A : Matrix (Fin M) (Fin M) ℝ) : ℝ := ∑ i, ∑ j, A i j ^ 2

/-- `X` is a least-squares solution of `A·X = B`: its residual is minimal
among all candidate matrices.  This is the defining property of the
matrix returned by `np.linalg.lstsq(A, B)` (which additionally picks the
minimum-norm minimizer in rank-deficient cases). -/
def IsLstsqSol {M : ℕ} (A B X : Matrix (Fin M) (Fin M) ℝ) : Prop :=
  ∀ Y, sqFrob (A * X - B) ≤ sqFrob (A * Y - B)

/-- The normal-equations matrix `P0 + CC.T @ GAI @ CC` of lines 130, 228
and 297. -/
def normalMatrix {N M : ℕ} (P0 : Matrix (Fin M) (Fin M) ℝ)
    (CC : Matrix (Fin N) (Fin M) ℝ) (GAI : Matrix (Fin N) (Fin N) ℝ) :
    Matrix (Fin M) (Fin M) ℝ :=
  P0 + CC.transpose * GAI * CC

/-- `m_phi = Sig @ (CC.T @ GAI @ y + P0 @ m0)` (lines 131, 229, 298). -/
noncomputable def m_phi_of {N M : ℕ} (Sig : Matrix (Fin M) (Fin M) ℝ)
    (CC : Matrix (Fin N) (Fin M) ℝ) (GAI : Matrix (Fin N) (Fin N) ℝ)
    (y : Fin N → ℝ) (P0 : Matrix (Fin M) (Fin M) ℝ) (m0 : Fin M → ℝ) : Fin M → ℝ :=
  Sig.mulVec (CC.transpose.mulVec (GAI.mulVec y) + P0.mulVec m0)

theorem sqFrob_nonneg {M : ℕ} (A : Matrix (Fin M) (Fin M) ℝ) : 0 ≤ sqFrob A :=
  Finset.sum_nonneg fun _ _ => Finset.sum_nonneg fun _ _ => sq_nonneg _

theorem sqFrob_eq_zero_iff {M : ℕ} (A : Matrix (Fin M) (Fin M) ℝ) :
    sqFrob A = 0 ↔ A = 0 := by
  constructor
  · intro hz
    ext i j
    have hrow := (Finset.sum_eq_zero_iff_of_nonneg
      (fun i _ => Finset.sum_nonneg fun j _ => sq_nonneg (A i j))).mp hz i (Finset.mem_univ i)
    have hcell := (Finset.sum_eq_zero_iff_of_nonneg
      (fun j _ => sq_nonneg (A i j))).mp hrow j (Finset.mem_univ j)
    simpa using sq_eq_zero_iff.mp hcell
  · intro hz
    rw [hz]
    simp [sqFrob]

/-- Claim C3: when the normal-equations matrix `P0 + CC.T·GAI·CC` is
invertible, a matrix `Sig` is the least-squares solution of
`(P0 + CC.T·GAI·CC)·Sig = I` (the quantity computed by `np.linalg.lstsq`
on lines 130, 228 and 297) exactly when it equals the exact inverse, and
the posterior mean is `m_phi = Sig·(CC.T·GAI·y + P0·m0)`. -/
theorem Sig_lstsq_inverse {N M : ℕ} (P0 : Matrix (Fin M) (Fin M) ℝ)
    (CC : Matrix (Fin N) (Fin M) ℝ) (GAI : Matrix (Fin N) (Fin N) ℝ)
    (y : Fin N → ℝ) (m0 : Fin M → ℝ)
    (hinv : IsUnit (normalMatrix P0 CC GAI).det) :
    (∀ Sig, IsLstsqSol (normalMatrix P0 CC GAI) 1 Sig ↔
      Sig = (normalMatrix P0 CC GAI)⁻¹) ∧
    (∀ Sig, m_phi_of Sig CC GAI y P0 m0 =
      Sig.mulVec (CC.transpose.mulVec (GAI.mulVec y) + P0.mulVec m0)) := by
  set A := normalMatrix P0 CC GAI with hA
  have hAinv : A * A⁻¹ = 1 := Matrix.mul_nonsing_inv A hinv
  have hres0 : sqFrob (A * A⁻¹ - 1) = 0 := by
    rw [hAinv, sub_self, (sqFrob_eq_zero_iff (0 : Matrix (Fin M) (Fin M) ℝ)).mpr rfl]
  refine ⟨fun Sig => ⟨?_, ?_⟩, fun Sig => rfl⟩
  · intro hls
    have hle : sqFrob (A * Sig - 1) ≤ 0 := by
      have := hls A⁻¹
      rwa [hres0] at this
    have hz : sqFrob (A * Sig - 1) = 0 := le_antisymm hle (sqFrob_nonneg _)
    have hone : A * Sig = 1 := sub_eq_zero.mp ((sqFrob_eq_zero_iff _).mp hz)
    exact (Matrix.inv_eq_right_inv hone).symm
  · intro hSig Y
    rw [hSig, hAinv, sub_self]
    have h0 : sqFrob (0 : Matrix (Fin M) (Fin M) ℝ) = 0 :=
      (sqFrob_eq_zero_iff _).mpr rfl
    rw [h0]
    exact sqFrob_nonneg _

/-- Witness for C3 at a concrete input: with `M = N = 1`, `P0 = 1`,
`CC = 0`, `GAI = 1`, the normal matrix is the identity, which is
invertible, and the exact inverse is the least-squares solution. -/
theorem Sig_lstsq_inverse_witness :
    IsLstsqSol
      (normalMatrix (1 : Matrix (Fin 1) (Fin 1) ℝ) (0 : Matrix (Fin 1) (Fin 1) ℝ)
        (1 : Matrix (Fin 1) (Fin 1) ℝ)) 1
      (normalMatrix (1 : Matrix (Fin 1) (Fin 1) ℝ) (0 : Matrix (Fin 1) (Fin 1) ℝ)
        (1 : Matrix (Fin 1) (Fin 1) ℝ))⁻¹ :=
  ((Sig_lstsq_inverse (1 : Matrix (Fin 1) (Fin 1) ℝ) (0 : Matrix (Fin 1) (Fin 1) ℝ)
    (1 : Matrix (Fin 1) (Fin 1) ℝ) 0 0 (by simp [normalMatrix])).1 _).mpr rfl

/-! ## Marginal-Likelihood Objective `_mmlenn` (lines 95-145)

The candidate is `pp = (sig, gam, phi)`.  Lines 118-127 rebuild `P0`,
`GAI`, `B`, `BB`, `CC1`, `CC`; line 130 obtains `Sig` by least squares
(characterized above); lines 133-139 gate on the phase and either return
the scalar objective or `np.inf`.  The eigenvalue list returned by
`np.linalg.eig(Sig)[0]` is kept abstract as a function `eigSig`, since it
appears identically on both sides of the claims. -/

/-- `P0` as rebuilt on line 118:
`np.diag(np.concatenate(([1/sigi/sigi, 1/sigi/sigi],
1/sig/sig*(np.arange(1, n+2)**aa))))`, an `M x M` diagonal
(`M = 2 + n + 1`); `aa` is the integer hyperparameter `Bayes.aa`. -/
noncomputable def P0_mm (sigi sig : ℝ) (M : ℕ) (aa : ℕ) : NDArr :=
  ⟨M, M, fun r c =>
    if r = c ∧ r < M then
      if r < 2 then 1 / sigi / sigi else 1 / sig / sig * (((r - 1 : ℕ) : ℝ)) ^ aa
    else 0⟩

/-- `GAI = 1/gam/gam*np.eye(N)` (lines 120, 206, 294). -/
noncomputable def GAI_of (gam : ℝ) (N : ℕ) : NDArr :=
  ⟨N, N, fun r c => if r = c ∧ r < N then 1 / gam / gam else 0⟩

/-- The value computed on lines 135-136 when the phase is feasible:
`np.sum(np.log(gam**2*np.ones((N, 1)))) + np.sum(np.log(eig(Sig))) +
y.T @ GAI @ y - (Sig @ CC.T @ (GAI @ y)).T @ (CC.T @ GAI @ y) +
0*sig**2/200` (all 1x1 matrix products read off at entry `(0,0)`, as
`float(out)` does). -/
noncomputable def mmlenn_out (sig gam : ℝ) (eigSig : ℕ → ℝ) (Sig CC GAI y : NDArr)
    (N M : ℕ) : ℝ :=
  (∑ _i ∈ Finset.range N, Real.log (gam ^ 2 * 1)) +
  (∑ i ∈ Finset.range M, Real.log (eigSig i)) +
  (NDArr.matmul (NDArr.matmul y.transpose GAI) y).entry 0 0 -
  (NDArr.matmul
    (NDArr.matmul (NDArr.matmul Sig CC.transpose) (NDArr.matmul GAI y)).transpose
    (NDArr.matmul (NDArr.matmul CC.transpose GAI) y)).entry 0 0 +
  0 * sig ^ 2 / 200

/-- The full `_mmlenn` return value (lines 118-145) for a candidate
`(sig, gam, phi)`: rebuild `GAI`, `B`, `BB`, `CC` from the candidate and
the fixed window quantities, then return the objective when
`-pi <= phi <= 0` and `np.inf` (modelled as `⊤ : EReal`) otherwise. -/
noncomputable def mmlenn_val (sig gam phi w : ℝ) (tt : ℕ → ℝ) (AAm a1 a2 y : NDArr)
    (n N M : ℕ) (h : ℝ) (eigSig : ℕ → ℝ) (Sig : NDArr) : EReal :=
  if -Real.pi ≤ phi ∧ phi ≤ 0 then
    ((mmlenn_out sig gam eigSig Sig (CC_of a1 a2 (BB_of AAm (B_phin phi w tt N n) h))
      (GAI_of gam N) y N M : ℝ) : EReal)
  else ⊤

/-- The NLML formula exactly as the spec states it:
`N*log(gam^2) + sum log(eig(Sig)) + y.T*GAI*y -
(Sig*CC.T*GAI*y).T*(CC.T*GAI*y)` — no `0*sig^2/200` term. -/
noncomputable def nlml_spec (gam : ℝ) (eigSig : ℕ → ℝ) (Sig CC GAI y : NDArr)
    (N M : ℕ) : ℝ :=
  (N : ℝ) * Real.log (gam ^ 2) +
  (∑ i ∈ Finset.range M, Real.log (eigSig i)) +
  (NDArr.matmul (NDArr.matmul y.transpose GAI) y).entry 0 0 -
  (NDArr.matmul
    (NDArr.matmul (NDArr.matmul Sig CC.transpose) (NDArr.matmul GAI y)).transpose
    (NDArr.matmul (NDArr.matmul CC.transpose GAI) y)).entry 0 0

/-- Claim C4: for every candidate `(sig, gam, phi)` with
`-pi <= phi <= 0`, `_mmlenn` returns exactly
`N*log(gam^2) + sum log(eig(Sig)) + y.T*GAI*y -
(Sig*CC.T*GAI*y).T*(CC.T*GAI*y)` with `GAI`, `B`, `CC` rebuilt from the
candidate as on lines 118-127; the code's extra `0*sig**2/200` term
contributes nothing. -/
theorem mmlenn_feasible_value (sig gam phi w : ℝ) (tt : ℕ → ℝ) (AAm a1 a2 y : NDArr)
    (n N M : ℕ) (h : ℝ) (eigSig : ℕ → ℝ) (Sig : NDArr)
    (h1 : -Real.pi ≤ phi) (h2 : phi ≤ 0) :
    mmlenn_val sig gam phi w tt AAm a1 a2 y n N M h eigSig Sig =
      ((nlml_spec gam eigSig Sig (CC_of a1 a2 (BB_of AAm (B_phin phi w tt N n) h))
        (GAI_of gam N) y N M : ℝ) : EReal) := by
  rw [mmlenn_val, if_pos ⟨h1, h2⟩]
  have hval : mmlenn_out sig gam eigSig Sig
      (CC_of a1 a2 (BB_of AAm (B_phin phi w tt N n) h)) (GAI_of gam N) y N M =
      nlml_spec gam eigSig Sig (CC_of a1 a2 (BB_of AAm (B_phin phi w tt N n) h))
        (GAI_of gam N) y N M := by
    rw [mmlenn_out, nlml_spec, Finset.sum_const, Finset.card_range, nsmul_eq_mul, mul_one]
    ring
  rw [hval]

/-- Witness for C4 at a concrete input (`phi = 0`, trivial 1x1 window
data): the boundary phase is feasible and produces the spec formula. -/
theorem mmlenn_feasible_value_witness :
    mmlenn_val 1 1 0 0 (fun _ => 0) (NDArr.zeros 1 1) (NDArr.zeros 1 1) (NDArr.zeros 1 1)
      (NDArr.zeros 1 1) 0 1 1 1 (fun _ => 1) (NDArr.zeros 1 1) =
      ((nlml_spec 1 (fun _ => 1) (NDArr.zeros 1 1)
        (CC_of (NDArr.zeros 1 1) (NDArr.zeros 1 1)
          (BB_of (NDArr.zeros 1 1) (B_phin 0 0 (fun _ => 0) 1 0) 1))
        (GAI_of 1 1) (NDArr.zeros 1 1) 1 1 : ℝ) : EReal) :=
  mmlenn_feasible_value 1 1 0 0 (fun _ => 0) (NDArr.zeros 1 1) (NDArr.zeros 1 1)
    (NDArr.zeros 1 1) (NDArr.zeros 1 1) 0 1 1 1 (fun _ => 1) (NDArr.zeros 1 1)
    (neg_nonpos.mpr Real.pi_nonneg) le_rfl

/-- Claim C5: for every candidate with `phi > 0` or `phi < -pi`,
`_mmlenn` returns `np.inf` (the sentinel `⊤`) regardless of `sig` and
`gam`, while the boundary phases `0` and `-pi` are feasible (produce a
finite real, never the sentinel). -/
theorem mmlenn_feasibility_wall (sig gam phi w : ℝ) (tt : ℕ → ℝ) (AAm a1 a2 y : NDArr)
    (n N M : ℕ) (h : ℝ) (eigSig : ℕ → ℝ) (Sig : NDArr)
    (hout : 0 < phi ∨ phi < -Real.pi) :
    mmlenn_val sig gam phi w tt AAm a1 a2 y n N M h eigSig Sig = ⊤ ∧
    mmlenn_val sig gam 0 w tt AAm a1 a2 y n N M h eigSig Sig ≠ ⊤ ∧
    mmlenn_val sig gam (-Real.pi) w tt AAm a1 a2 y n N M h eigSig Sig ≠ ⊤ := by
  refine ⟨?_, ?_, ?_⟩
  · rw [mmlenn_val, if_neg]
    rintro ⟨hlo, hhi⟩
    rcases hout with hpos | hlow
    · exact absurd hhi (not_le.mpr hpos)
    · exact absurd hlo (not_le.mpr hlow)
  · rw [mmlenn_val, if_pos ⟨neg_nonpos.mpr Real.pi_nonneg, le_rfl⟩]
    exact EReal.coe_ne_top _
  · rw [mmlenn_val, if_pos ⟨le_rfl, neg_nonpos.mpr Real.pi_nonneg⟩]
    exact EReal.coe_ne_top _

/-- Witness for C5 at a concrete input: `phi = 1 > 0` is infeasible. -/
theorem mmlenn_feasibility_wall_witness :
    mmlenn_val 1 1 1 0 (fun _ => 0) (NDArr.zeros 1 1) (NDArr.zeros 1 1) (NDArr.zeros 1 1)
      (NDArr.zeros 1 1) 0 1 1 1 (fun _ => 1) (NDArr.zeros 1 1) = ⊤ :=
  (mmlenn_feasibility_wall 1 1 1 0 (fun _ => 0) (NDArr.zeros 1 1) (NDArr.zeros 1 1)
    (NDArr.zeros 1 1) (NDArr.zeros 1 1) 0 1 1 1 (fun _ => 1) (NDArr.zeros 1 1)
    (Or.inl one_pos)).1

/-! ## Hyperparameter Optimizer restart loop (lines 251-279)

The seeded minimization (line 251) sets `fvalg = optResult.fun`,
`pp1g = optResult.x` (lines 258-259); the loop over ten random restarts
(lines 261-277) replaces the tracked best exactly when
`optResult.fun < fvalg`; line 279 returns `pp1 = pp1g`.  A restart result
is a pair of an objective value (`EReal`, since `_mmlenn` can return
`np.inf`) and a parameter triple. -/

/-- One iteration of the comparison on lines 275-277:
`if optResult.fun < fvalg: pp1g = optResult.x; fvalg = optResult.fun`. -/
noncomputable def restartStep (best r : EReal × (Fin 3 → ℝ)) : EReal × (Fin 3 → ℝ) :=
  if r.1 < best.1 then r else best

/-- The tracked best after folding the restart results over the seeded
result (lines 258-279). -/
noncomputable def runRestarts (seeded : EReal × (Fin 3 → ℝ))
    (rs : List (EReal × (Fin 3 → ℝ))) : EReal × (Fin 3 → ℝ) :=
  rs.foldl restartStep seeded

theorem restartStep_fst_le_left (best r : EReal × (Fin 3 → ℝ)) :
    (restartStep best r).1 ≤ best.1 := by
  rw [restartStep]
  split_ifs with hlt
  · exact le_of_lt hlt
  · exact le_rfl

theorem restartStep_fst_le_right (best r : EReal × (Fin 3 → ℝ)) :
    (restartStep best r).1 ≤ r.1 := by
  rw [restartStep]
  split_ifs with hlt
  · exact le_rfl
  · exact le_of_not_lt hlt

theorem runRestarts_fst_le_seed (rs : List (EReal × (Fin 3 → ℝ)))
    (seeded : EReal × (Fin 3 → ℝ)) : (runRestarts seeded rs).1 ≤ seeded.1 := by
  induction rs generalizing seeded with
  | nil => exact le_rfl
  | cons r rs ih =>
    calc (runRestarts (restartStep seeded r) rs).1
        ≤ (restartStep seeded r).1 := ih (restartStep seeded r)
      _ ≤ seeded.1 := restartStep_fst_le_left seeded r

theorem runRestarts_mem (rs : List (EReal × (Fin 3 → ℝ)))
    (seeded : EReal × (Fin 3 → ℝ)) : runRestarts seeded rs ∈ seeded :: rs := by
  induction rs generalizing seeded with
  | nil => exact List.mem_singleton.mpr rfl
  | cons r rs ih =>
    have hmem : runRestarts (restartStep seeded r) rs ∈ (restartStep seeded r) :: rs :=
      ih (restartStep seeded r)
    rcases List.mem_cons.mp hmem with heq | htail
    · rw [runRestarts, List.foldl_cons]
      show runRestarts (restartStep seeded r) rs ∈ seeded :: r :: rs
      rw [heq, restartStep]
      split_ifs
      · exact List.mem_cons_of_mem _ (List.mem_cons_self _ _)
      · exact List.mem_cons_self _ _
    · exact List.mem_cons_of_mem _ (List.mem_cons_of_mem _ htail)

theorem runRestarts_fst_min (rs : List (EReal × (Fin 3 → ℝ)))
    (seeded q : EReal × (Fin 3 → ℝ)) (hq : q ∈ seeded :: rs) :
    (runRestarts seeded rs).1 ≤ q.1 := by
  induction rs generalizing seeded with
  | nil =>
    have hq1 : q = seeded := List.mem_singleton.mp hq
    rw [hq1]
    exact le_rfl
  | cons r rs ih =>
    rcases List.mem_cons.mp hq with heq | hq2
    · calc (runRestarts (restartStep seeded r) rs).1
          ≤ (restartStep seeded r).1 := runRestarts_fst_le_seed rs _
        _ ≤ seeded.1 := restartStep_fst_le_left seeded r
        _ = q.1 := by rw [heq]
    · rcases List.mem_cons.mp hq2 with heq | htail
      · calc (runRestarts (restartStep seeded r) rs).1
            ≤ (restartStep seeded r).1 := runRestarts_fst_le_seed rs _
          _ ≤ r.1 := restartStep_fst_le_right seeded r
          _ = q.1 := by rw [heq]
      · exact ih (restartStep seeded r) (List.mem_cons_of_mem _ htail)

/-- Claim C6: across the seeded minimization and the subsequent random
restarts (ten in the source, line 261), the tracked best objective
`fvalg` is non-increasing as each restart result is folded in, and the
returned pair `(fvalg, pp1)` is one of the evaluated results and attains
the minimum objective value over all of them, the seeded one included. -/
theorem optimizer_restart_monotone_min (seeded : EReal × (Fin 3 → ℝ))
    (rs : List (EReal × (Fin 3 → ℝ))) :
    (∀ pre r, (runRestarts seeded (pre ++ [r])).1 ≤ (runRestarts seeded pre).1) ∧
    runRestarts seeded rs ∈ seeded :: rs ∧
    (∀ q ∈ seeded :: rs, (runRestarts seeded rs).1 ≤ q.1) := by
  refine ⟨?_, runRestarts_mem rs seeded, fun q hq => runRestarts_fst_min rs seeded q hq⟩
  intro pre r
  rw [runRestarts, List.foldl_append, List.foldl_cons, List.foldl_nil]
  exact restartStep_fst_le_left _ r

/-- Witness for C6 at a concrete input: with seeded objective 3 and one
restart of objective 1, the tracked best is at most 1. -/
theorem optimizer_restart_monotone_min_witness :
    (runRestarts ((3 : EReal), fun _ => (0 : ℝ)) [((1 : EReal), fun _ => (1 : ℝ))]).1 ≤
      (1 : EReal) :=
  (optimizer_restart_monotone_min ((3 : EReal), fun _ => (0 : ℝ))
    [((1 : EReal), fun _ => (1 : ℝ))]).2.2 ((1 : EReal), fun _ => (1 : ℝ))
    (List.mem_cons_of_mem _ (List.mem_cons_self _ _))

/-- Folding restarts whose objective is the infeasible sentinel `⊤` never
replaces the tracked best (nothing is `< ⊤`-dominated by `⊤`). -/
theorem restartStep_top (best : EReal × (Fin 3 → ℝ)) (x : Fin 3 → ℝ) :
    restartStep best ((⊤ : EReal), x) = best := if_neg not_top_lt

/-- Claim C7 (behaviour of the code at the failing input): if the seeded
minimization and all ten restarts return `np.inf` (no feasible phase ever
found), `BayesianInference` keeps the seeded point with `fvalg = ⊤`,
assigns it to `pp1` (line 279) and proceeds to the posterior
recomputation and the ordinary return; nothing in the control flow
distinguishes this from a successful fit. -/
theorem optimizer_all_infeasible_silent (x0 x1 : Fin 3 → ℝ) :
    runRestarts ((⊤ : EReal), x0) (List.replicate 10 ((⊤ : EReal), x1)) =
      ((⊤ : EReal), x0) := by
  have key : ∀ m (best : EReal × (Fin 3 → ℝ)),
      (List.replicate m ((⊤ : EReal), x1)).foldl restartStep best = best := by
    intro m
    induction m with
    | zero => intro best; rfl
    | succ m ih =>
      intro best
      rw [List.replicate_succ, List.foldl_cons, restartStep_top]
      exact ih best
  exact key 10 ((⊤ : EReal), x0)

/-! ## Result Summarizer fit statistics (processResults, lines 394-403)

`p1 = np.polyfit(x1.T[0], y1, 2)`; `yfit = np.polyval(p1, x1)`;
`yresid = y1 - yfit`; `SSresid = sum(yresid**2)`;
`SStotal = (y1.size - 1)*np.var(y1)`; `rsq = 1 - SSresid/SStotal`.
The polyfit coefficients are kept abstract (the bound holds for any
degree-2 coefficients), `np.var` is the population variance, and floats
are modelled as reals. -/

/-- np.mean of the first `m` entries. -/
noncomputable def npMean (m : ℕ) (y : ℕ → ℝ) : ℝ := (∑ i ∈ Finset.range m, y i) / m

/-- np.var: the population variance (mean of squared deviations). -/
noncomputable def npVar (m : ℕ) (y : ℕ → ℝ) : ℝ :=
  (∑ i ∈ Finset.range m, (y i - npMean m y) ^ 2) / m

/-- np.polyval for the degree-2 coefficient vector `p1 = [c2, c1, c0]`. -/
noncomputable def polyval2 (c2 c1 c0 x : ℝ) : ℝ := c2 * x ^ 2 + c1 * x + c0

/-- `SSresid = sum(yresid**2)` with `yresid = y1 - yfit` (lines 400-401). -/
noncomputable def SSresid_of (m : ℕ) (y1 yfit : ℕ → ℝ) : ℝ :=
  ∑ i ∈ Finset.range m, (y1 i - yfit i) ^ 2

/-- `SStotal = (y1.size - 1)*np.var(y1)` (line 402). -/
noncomputable def SStotal_of (m : ℕ) (y1 : ℕ → ℝ) : ℝ := ((m : ℝ) - 1) * npVar m y1

/-- `rsq = 1 - SSresid/SStotal` (line 403) with `yfit = polyval(p1, x1)`
(line 399). -/
noncomputable def rsq_of (m : ℕ) (y1 x1 : ℕ → ℝ) (c2 c1 c0 : ℝ) : ℝ :=
  1 - SSresid_of m y1 (fun i => polyval2 c2 c1 c0 (x1 i)) / SStotal_of m y1

/-- Claim C9: for every window length, recovered-force sequence, drive
sequence and quadratic-fit coefficients, the coefficient of determination
`rsq = 1 - SSresid/SStotal` computed by `processResults` is at most 1
(it can be negative for poor fits but never exceeds 1). -/
theorem rsq_le_one (m : ℕ) (y1 x1 : ℕ → ℝ) (c2 c1 c0 : ℝ) :
    rsq_of m y1 x1 c2 c1 c0 ≤ 1 := by
  have hresid : 0 ≤ SSresid_of m y1 (fun i => polyval2 c2 c1 c0 (x1 i)) :=
    Finset.sum_nonneg fun _ _ => sq_nonneg _
  have hvar : 0 ≤ npVar m y1 :=
    div_nonneg (Finset.sum_nonneg fun _ _ => sq_nonneg _) (Nat.cast_nonneg m)
  have htotal : 0 ≤ SStotal_of m y1 := by
    rcases Nat.eq_zero_or_pos m with hm | hm
    · subst hm
      simp [SStotal_of, npVar, npMean]
    · have hm1 : (1 : ℝ) ≤ (m : ℝ) := by exact_mod_cast hm
      exact mul_nonneg (sub_nonneg.mpr hm1) hvar
  exact sub_le_self 1 (div_nonneg hresid htotal)

end KpfmBayes
